import Mathlib

/-!
Verification of the encoding engine of the `pw_tokenizer` Rust crate
(`src/pw_tokenizer/rust/pw_tokenizer/lib.rs`).

The file under `src/` is the public facade: the `token!`,
`tokenize_to_buffer!` and `tokenize_to_writer!` wrappers, the
`MessageWriter` trait, and the tests of the crate with their concrete
expected byte vectors.  The algorithmic core lives in collaborator crates
that are not under `src/` (`pw_tokenizer_core::hash_string`, the
`Cursor`/`WriteVarint` machinery of `pw_stream`, and the code generated by
`pw_tokenizer_macro`), so those parts are modelled from the specification
(spec.md §3-§4.4, §7) and validated below against every concrete expected
buffer asserted by the tests of the crate.
-/

/-- Byte content of an ASCII string literal, as the list of code points
(identical to the UTF-8 bytes for the ASCII strings used in the tests). -/
def strBytes (s : String) : List Nat :=
  s.data.map Char.toNat

/-- Accumulator loop of the token hash: `hash += coefficient * byte;
coefficient *= 65599`, all in 32-bit wrapping arithmetic. -/
def hash_step : List Nat → Nat → Nat → Nat
  | [], hash, _ => hash
  | b :: rest, hash, coeff =>
      hash_step rest ((hash + coeff * b) % 2 ^ 32) ((coeff * 65599) % 2 ^ 32)

/-- Modelled from the spec: the Token Computer
(`pw_tokenizer_core::hash_string`, not under `src/`).  spec.md §4.1 leaves
the exact algorithm open but mandates a deterministic, length-sensitive
32-bit hash; this is the published pw_tokenizer 65599 hash seeded with the
string length, which reproduces every concrete token byte vector asserted
by the tests in `src/pw_tokenizer/rust/pw_tokenizer/lib.rs`. -/
def hash_string (bytes : List Nat) : Nat :=
  hash_step bytes (bytes.length % 2 ^ 32) 65599

/-- Little-endian 4-byte serialization of a 32-bit token, as written by the
encoder ahead of the arguments (spec.md §3 EncodedMessage). -/
def le_bytes4 (t : Nat) : List Nat :=
  [t % 256, t / 2 ^ 8 % 256, t / 2 ^ 16 % 256, t / 2 ^ 24 % 256]

/-- Modelled from the spec: the 32-bit zig-zag transform of §4.2,
`zigzag(n) = (n <<< 1) XOR (n >>>ₐ 31)` computed on the two-complement
32-bit pattern of `n` (4294967296 = 2^32; the arithmetic right shift of a
32-bit value by 31 is all ones when the sign bit is set and zero
otherwise). -/
def zigzag32 (n : Int) : Nat :=
  Nat.xor ((n % (4294967296 : Int)).toNat * 2 % 2 ^ 32)
    (if 2 ^ 31 ≤ (n % (4294967296 : Int)).toNat then 2 ^ 32 - 1 else 0)

/-- Fuel-indexed base-128 loop; the fuel only serves structural
termination and is irrelevant once it is at least the value (see
`varint_encode_aux_irrel` and `varint_encode_eq` below). -/
def varint_encode_aux : Nat → Nat → List Nat
  | 0, n => [n % 128]
  | fuel + 1, n =>
      if n < 128 then [n]
      else (n % 128 + 128) :: varint_encode_aux fuel (n / 128)

/-- Modelled from the spec: the base-128 varint of §4.2
(`pw_stream::WriteVarint`, not under `src/`): 7-bit groups, least
significant first, every byte but the last with its high (continuation)
bit set. -/
def varint_encode (n : Nat) : List Nat :=
  varint_encode_aux n n

/-- The integer format specifier classes accepted by the format string
(spec.md §6: decimal `%d`, alternate decimal `%i`, octal `%o`, unsigned
decimal `%u`, lower hex `%x`, upper hex `%X`). -/
inductive Specifier
  | d
  | i
  | o
  | u
  | x
  | X
deriving DecidableEq

/-- A runtime argument paired with the specifier class that bound it
(spec.md §3 ArgumentSpec).  Characters are `u8` values (modelled `mod`
256); strings are raw byte lists. -/
inductive Arg
  | int (sp : Specifier) (n : Int)
  | uint (sp : Specifier) (n : Nat)
  | char (c : Nat)
  | str (s : List Nat)
deriving DecidableEq

/-- Modelled from the spec: the fixed-capacity buffer sink of §4.4
(`pw_stream::Cursor`, not under `src/`): a byte buffer plus a write
position. -/
structure Cursor where
  buf : List Nat
  pos : Nat
deriving DecidableEq

/-- Free capacity of the cursor (spec.md §4.4 `remaining()`). -/
def Cursor.remaining (c : Cursor) : Nat :=
  c.buf.length - c.pos

/-- Overwrite `buf` with `data` starting at `pos`, leaving all other
bytes in place. -/
def writeAt (buf : List Nat) (pos : Nat) (data : List Nat) : List Nat :=
  buf.take pos ++ data ++ buf.drop (pos + data.length)

/-- Modelled from the spec: §4.4 `write(bytes)` — appends all given bytes
at the cursor position, failing atomically (no partial write; `none`
models `pw_status::Error::OutOfRange`) when the destination cannot accept
them all. -/
def Cursor.write_all (c : Cursor) (data : List Nat) : Option Cursor :=
  if data.length ≤ c.remaining then
    some ⟨writeAt c.buf c.pos data, c.pos + data.length⟩
  else
    none

/-- Modelled from the spec: the Argument Encoders of §4.2 (code generated
by `pw_tokenizer_macro`, not under `src/`).
* Every integer specifier class uses the one shared zig-zag varint
  encoding (§4.2: radix affects only later rendering, never wire bytes),
  unsigned values entering as already non-negative (`zigzag(n) = 2n`).
* A character is one raw byte, no transform, no length byte.
* A string is one length byte then the content: the low 7 bits hold the
  number of content bytes actually written, the high bit is the
  truncation flag, and the content is clipped to the remaining space —
  the sole encoder allowed to adapt instead of failing (§4.4).
Strings longer than 127 bytes that still fit are left open by the spec
(§9) and never arise in the verified claims. -/
def encodeArg (c : Cursor) : Arg → Option Cursor
  | .int _ n => c.write_all (varint_encode (zigzag32 n))
  | .uint _ n => c.write_all (varint_encode (n * 2 % 2 ^ 32))
  | .char ch => c.write_all [ch % 256]
  | .str s =>
      if c.remaining = 0 then none
      else
        let written := min s.length (c.remaining - 1)
        let lenByte := (if written < s.length then 128 else 0) + written
        c.write_all (lenByte :: s.take written)

/-- The fixed wire bytes of a non-string argument.  These encoders are
atomic (spec.md §4.4 truncation policy): their byte sequence never adapts
to the sink, so an argument either contributes exactly these bytes or
fails the whole call.  Strings yield `none`: the string encoder is the
one encoder allowed to adapt. -/
def nonStringBytes : Arg → Option (List Nat)
  | .int _ n => some (varint_encode (zigzag32 n))
  | .uint _ n => some (varint_encode (n * 2 % 2 ^ 32))
  | .char ch => some [ch % 256]
  | .str _ => none

/-- Outcome of one encode call: `ok len buf` models `Ok(len)` together
with the final buffer contents, `err buf` models `Err(OutOfRange)`
(spec.md §7) together with whatever had been committed to the buffer by
the time of failure (spec.md §5: no rollback of already-written bytes). -/
inductive EncodeResult
  | ok (len : Nat) (buf : List Nat)
  | err (buf : List Nat)
deriving DecidableEq

/-- Drive the Argument Encoders left to right (spec.md §4.3). -/
def encodeArgs : List Arg → Cursor → EncodeResult
  | [], c => .ok c.pos c.buf
  | a :: rest, c =>
      match encodeArg c a with
      | none => .err c.buf
      | some c2 => encodeArgs rest c2

/-- Modelled from the spec: the code `tokenize_to_buffer!` expands to
(`pw_tokenizer_macro::_tokenize_to_buffer`, not under `src/`): wrap the
buffer of the caller in a cursor, write the 4 token bytes, then each
argument encoding in order, returning the total bytes written (lib.rs
doc: fails with `OutOfRange` when the tokenized data does not fit). -/
def tokenize_to_buffer (fmt : List Nat) (args : List Arg) (buf : List Nat) :
    EncodeResult :=
  match Cursor.write_all ⟨buf, 0⟩ (le_bytes4 (hash_string fmt)) with
  | none => .err buf
  | some c => encodeArgs args c

/-- Modelled from the spec and the tests of the crate:
`tokenize_to_writer!` driving a `MessageWriter` backed by a
fixed-capacity zeroed cursor whose `finalize` yields the first `pos`
bytes (the `TestMessageWriter` of lib.rs); `none` models a failed
(error-returning) call. -/
def tokenize_to_writer (fmt : List Nat) (args : List Arg) (capacity : Nat) :
    Option (List Nat) :=
  match tokenize_to_buffer fmt args (List.replicate capacity 0) with
  | .ok len buf => some (buf.take len)
  | .err _ => none

/-- Modelled from the spec: `PW_FMT_CONCAT` resolution
(`pw_bytes::concat_static_strs`, not under `src/`): adjacent literal
fragments are joined into one logical string before tokenization
(spec.md §4.3). -/
def concat_static_strs (frags : List (List Nat)) : List Nat :=
  frags.flatten

/-- An encode call on a multi-fragment format string: the fragments are
concatenated first, then the joined literal is tokenized and encoded
(spec.md §4.3). -/
def tokenize_fragments_to_buffer (frags : List (List Nat)) (args : List Arg)
    (buf : List Nat) : EncodeResult :=
  tokenize_to_buffer (concat_static_strs frags) args buf

lemma le_bytes4_length (t : Nat) : (le_bytes4 t).length = 4 := rfl

lemma write_all_of_le (c : Cursor) (data : List Nat)
    (h : data.length ≤ c.remaining) :
    c.write_all data = some ⟨writeAt c.buf c.pos data, c.pos + data.length⟩ := by
  simp [Cursor.write_all, h]

lemma write_all_of_gt (c : Cursor) (data : List Nat)
    (h : ¬ data.length ≤ c.remaining) :
    c.write_all data = none := by
  simp [Cursor.write_all, h]

lemma writeAt_zero (buf data : List Nat) :
    writeAt buf 0 data = data ++ buf.drop data.length := by
  simp [writeAt]

lemma tokenize_to_buffer_token (fmt : List Nat) (args : List Arg)
    (buf : List Nat) (h : 4 ≤ buf.length) :
    tokenize_to_buffer fmt args buf =
      encodeArgs args ⟨le_bytes4 (hash_string fmt) ++ buf.drop 4, 4⟩ := by
  have h4 : (le_bytes4 (hash_string fmt)).length ≤ Cursor.remaining ⟨buf, 0⟩ := by
    simp [le_bytes4_length, Cursor.remaining]
    omega
  rw [tokenize_to_buffer, write_all_of_le _ _ h4, writeAt_zero]
  simp [le_bytes4_length]

lemma writeAt_after_token (tok rest data : List Nat) (htok : tok.length = 4) :
    writeAt (tok ++ rest) 4 data = tok ++ data ++ rest.drop data.length := by
  unfold writeAt
  rw [← htok, List.take_left, List.drop_append]

lemma remaining_after_token (tok rest : List Nat) (htok : tok.length = 4) :
    Cursor.remaining ⟨tok ++ rest, 4⟩ = rest.length := by
  simp [Cursor.remaining, htok]

lemma encodeArgs_nil (c : Cursor) : encodeArgs [] c = .ok c.pos c.buf := rfl

/-- Encoding one argument whose encoder issues a single fixed write of
`data` that fits after the token. -/
lemma tokenize_fixed_arg (fmt : List Nat) (a : Arg) (data : List Nat)
    (buf : List Nat) (h4 : 4 + data.length ≤ buf.length)
    (hEnc : encodeArg ⟨le_bytes4 (hash_string fmt) ++ buf.drop 4, 4⟩ a =
      Cursor.write_all ⟨le_bytes4 (hash_string fmt) ++ buf.drop 4, 4⟩ data) :
    tokenize_to_buffer fmt [a] buf =
      .ok (4 + data.length)
        (le_bytes4 (hash_string fmt) ++ data ++ buf.drop (4 + data.length)) := by
  rw [tokenize_to_buffer_token fmt [a] buf (by omega)]
  have hlen : (le_bytes4 (hash_string fmt)).length = 4 := le_bytes4_length _
  have hle : data.length ≤
      Cursor.remaining ⟨le_bytes4 (hash_string fmt) ++ buf.drop 4, 4⟩ := by
    rw [remaining_after_token _ _ hlen]
    simp
    omega
  have hstep : encodeArg ⟨le_bytes4 (hash_string fmt) ++ buf.drop 4, 4⟩ a =
      some ⟨writeAt (le_bytes4 (hash_string fmt) ++ buf.drop 4) 4 data,
        4 + data.length⟩ := by
    rw [hEnc, write_all_of_le _ _ hle]
  simp only [encodeArgs, hstep]
  rw [writeAt_after_token _ _ _ hlen, List.drop_drop]

lemma encodeArg_str_fit (c : Cursor) (s : List Nat)
    (h1 : 1 + s.length ≤ c.remaining) :
    encodeArg c (.str s) = c.write_all (s.length :: s) := by
  have h0 : ¬ c.remaining = 0 := by omega
  have hmin : min s.length (c.remaining - 1) = s.length := by omega
  simp only [encodeArg, h0, if_false, hmin, Nat.lt_irrefl, ite_false,
    List.take_length, Nat.zero_add]

lemma encodeArg_str_trunc (c : Cursor) (s : List Nat) (h0 : c.remaining ≠ 0)
    (h1 : c.remaining - 1 < s.length) :
    encodeArg c (.str s) =
      c.write_all ((128 + (c.remaining - 1)) :: s.take (c.remaining - 1)) := by
  have hmin : min s.length (c.remaining - 1) = c.remaining - 1 := by omega
  simp only [encodeArg]
  rw [if_neg h0]
  simp only [hmin]
  rw [if_pos h1]

lemma write_all_frame (c c' : Cursor) (data : List Nat)
    (hwf : c.pos ≤ c.buf.length) (h : c.write_all data = some c') :
    c'.pos = c.pos + data.length ∧ c'.buf.length = c.buf.length ∧
      c'.pos ≤ c'.buf.length ∧
      ∀ i, c'.pos ≤ i → c'.buf.drop i = c.buf.drop i := by
  unfold Cursor.write_all at h
  split at h
  case isTrue hle =>
    rw [Option.some_inj] at h
    subst h
    rw [Cursor.remaining] at hle
    have hfit : c.pos + data.length ≤ c.buf.length := by omega
    refine ⟨rfl, ?_, ?_, ?_⟩
    · simp [writeAt, List.length_take, List.length_drop]
      omega
    · simp [writeAt, List.length_take, List.length_drop]
      omega
    · intro i hi
      simp only at hi
      have hsplit : writeAt c.buf c.pos data =
          (c.buf.take c.pos ++ data) ++ c.buf.drop (c.pos + data.length) := by
        simp [writeAt]
      simp only [hsplit]
      have hi' : i =
          (c.buf.take c.pos ++ data).length + (i - (c.pos + data.length)) := by
        simp [List.length_take]
        omega
      rw [hi', List.drop_append, List.drop_drop]
      congr 1
      simp [List.length_take]
      omega
  case isFalse => exact absurd h (by simp)

lemma encodeArg_frame (c c' : Cursor) (a : Arg)
    (hwf : c.pos ≤ c.buf.length) (h : encodeArg c a = some c') :
    c.pos ≤ c'.pos ∧ c'.buf.length = c.buf.length ∧ c'.pos ≤ c'.buf.length ∧
      ∀ i, c'.pos ≤ i → c'.buf.drop i = c.buf.drop i := by
  cases a with
  | int sp n =>
    obtain ⟨h1, h2, h3, h4⟩ := write_all_frame c c' _ hwf h
    exact ⟨by omega, h2, h3, h4⟩
  | uint sp n =>
    obtain ⟨h1, h2, h3, h4⟩ := write_all_frame c c' _ hwf h
    exact ⟨by omega, h2, h3, h4⟩
  | char ch =>
    obtain ⟨h1, h2, h3, h4⟩ := write_all_frame c c' _ hwf h
    exact ⟨by omega, h2, h3, h4⟩
  | str s =>
    simp only [encodeArg] at h
    split at h
    · exact absurd h (by simp)
    · obtain ⟨h1, h2, h3, h4⟩ := write_all_frame c c' _ hwf h
      exact ⟨by omega, h2, h3, h4⟩

lemma encodeArgs_ok_frame (args : List Arg) :
    ∀ (c : Cursor) (len : Nat) (buf' : List Nat), c.pos ≤ c.buf.length →
      encodeArgs args c = .ok len buf' →
      c.pos ≤ len ∧ buf'.length = c.buf.length ∧ len ≤ buf'.length ∧
        ∀ i, len ≤ i → buf'.drop i = c.buf.drop i := by
  induction args with
  | nil =>
    intro c len buf' hwf h
    rw [encodeArgs_nil] at h
    cases h
    exact ⟨Nat.le_refl _, rfl, hwf, fun i _ => rfl⟩
  | cons a rest ih =>
    intro c len buf' hwf h
    unfold encodeArgs at h
    cases hEnc : encodeArg c a with
    | none => rw [hEnc] at h; exact absurd h (by simp)
    | some c2 =>
      rw [hEnc] at h
      obtain ⟨p1, p2, p3, p4⟩ := encodeArg_frame c c2 a hwf hEnc
      obtain ⟨q1, q2, q3, q4⟩ := ih c2 len buf' p3 h
      refine ⟨by omega, by omega, q3, ?_⟩
      intro i hi
      rw [q4 i hi, p4 i (by omega)]

lemma encodeArg_nonString (c : Cursor) (a : Arg) (data : List Nat)
    (h : nonStringBytes a = some data) :
    encodeArg c a = c.write_all data := by
  cases a with
  | int sp n =>
    simp only [nonStringBytes, Option.some_inj] at h
    subst h
    rfl
  | uint sp n =>
    simp only [nonStringBytes, Option.some_inj] at h
    subst h
    rfl
  | char ch =>
    simp only [nonStringBytes, Option.some_inj] at h
    subst h
    rfl
  | str s => exact absurd h (by simp [nonStringBytes])

lemma encodeArgs_cons_some (a : Arg) (rest : List Arg) (c c2 : Cursor)
    (h : encodeArg c a = some c2) :
    encodeArgs (a :: rest) c = encodeArgs rest c2 := by
  simp only [encodeArgs, h]

lemma encodeArgs_cons_none (a : Arg) (rest : List Arg) (c : Cursor)
    (h : encodeArg c a = none) :
    encodeArgs (a :: rest) c = .err c.buf := by
  simp only [encodeArgs, h]

/-- Encoding a longer argument list factors through the cursor state the
successful shorter list leaves behind. -/
lemma encodeArgs_append_of_ok :
    ∀ (args1 : List Arg) (c : Cursor) (len : Nat) (mid : List Nat),
      encodeArgs args1 c = .ok len mid →
      ∀ rest : List Arg,
        encodeArgs (args1 ++ rest) c = encodeArgs rest ⟨mid, len⟩ := by
  intro args1
  induction args1 with
  | nil =>
    intro c len mid h rest
    rw [encodeArgs_nil] at h
    cases h
    rfl
  | cons a as ih =>
    intro c len mid h rest
    cases hEnc : encodeArg c a with
    | none =>
      rw [encodeArgs_cons_none a as c hEnc] at h
      exact absurd h (by simp)
    | some c2 =>
      rw [encodeArgs_cons_some a as c c2 hEnc] at h
      rw [List.cons_append, encodeArgs_cons_some a (as ++ rest) c c2 hEnc]
      exact ih c2 len mid h rest

/-- The fuel of `varint_encode_aux` is irrelevant once at least the
value. -/
lemma varint_encode_aux_irrel : ∀ (f1 f2 n : Nat), n ≤ f1 → n ≤ f2 →
    varint_encode_aux f1 n = varint_encode_aux f2 n := by
  intro f1
  induction f1 with
  | zero =>
    intro f2 n h1 h2
    have hn : n = 0 := by omega
    subst hn
    cases f2 <;> simp [varint_encode_aux]
  | succ f ih =>
    intro f2 n h1 h2
    cases f2 with
    | zero =>
      have hn : n = 0 := by omega
      subst hn
      simp [varint_encode_aux]
    | succ g =>
      simp only [varint_encode_aux]
      by_cases hn : n < 128
      · rw [if_pos hn, if_pos hn]
      · rw [if_neg hn, if_neg hn]
        have hlt : n / 128 < n := Nat.div_lt_self (by omega) (by omega)
        rw [ih g (n / 128) (by omega) (by omega)]

/-- `varint_encode` satisfies the base-128 recurrence of spec.md §4.2:
values below 128 are one byte with the high bit clear, larger values emit
the low 7-bit group with the continuation bit set and recurse on the
remaining bits. -/
lemma varint_encode_eq (n : Nat) :
    varint_encode n =
      if n < 128 then [n] else (n % 128 + 128) :: varint_encode (n / 128) := by
  unfold varint_encode
  cases n with
  | zero => simp [varint_encode_aux]
  | succ m =>
    simp only [varint_encode_aux]
    by_cases h : m + 1 < 128
    · rw [if_pos h, if_pos h]
    · rw [if_neg h, if_neg h]
      have hlt : (m + 1) / 128 < m + 1 := Nat.div_lt_self (by omega) (by omega)
      rw [varint_encode_aux_irrel m ((m + 1) / 128) ((m + 1) / 128) (by omega)
        (Nat.le_refl _)]

/-- Claim C1: a format string with no argument specifiers encodes, into a
buffer or writer of sufficient capacity, to exactly the 4 token bytes and
nothing else, with 4 bytes reported written; in particular
"Hello Pigweed" yields the 4-byte message e0 92 e0 0a. -/
theorem noarg_message_is_exactly_token :
    (∀ (fmt buf : List Nat), 4 ≤ buf.length →
      tokenize_to_buffer fmt [] buf =
        .ok 4 (le_bytes4 (hash_string fmt) ++ buf.drop 4)) ∧
    (∀ (fmt : List Nat) (cap : Nat), 4 ≤ cap →
      tokenize_to_writer fmt [] cap = some (le_bytes4 (hash_string fmt))) ∧
    tokenize_to_writer (strBytes "Hello Pigweed") [] 64 =
      some [0xe0, 0x92, 0xe0, 0x0a] ∧
    tokenize_to_buffer (strBytes "Hello Pigweed") [] (List.replicate 64 0) =
      .ok 4 ([0xe0, 0x92, 0xe0, 0x0a] ++ List.replicate 60 0) := by
  have hbuf : ∀ (fmt buf : List Nat), 4 ≤ buf.length →
      tokenize_to_buffer fmt [] buf =
        .ok 4 (le_bytes4 (hash_string fmt) ++ buf.drop 4) := by
    intro fmt buf h
    rw [tokenize_to_buffer_token fmt [] buf h, encodeArgs_nil]
  refine ⟨hbuf, ?_, by decide, by decide⟩
  intro fmt cap h
  unfold tokenize_to_writer
  rw [hbuf fmt _ (by simp; omega)]
  simp only []
  rw [← le_bytes4_length (hash_string fmt), List.take_left]

theorem noarg_message_is_exactly_token_witness :
    4 ≤ (List.replicate 4 (0 : Nat)).length ∧
    tokenize_to_buffer (strBytes "Hi") [] (List.replicate 4 0) =
      .ok 4 (le_bytes4 (hash_string (strBytes "Hi")) ++
        (List.replicate 4 (0 : Nat)).drop 4) :=
  ⟨by decide,
    noarg_message_is_exactly_token.1 (strBytes "Hi") (List.replicate 4 0)
      (by decide)⟩

/-- Claim C2: a signed integer argument contributes, right after the 4
token bytes, exactly the base-128 varint of its 32-bit zig-zag transform
(the recurrence of the varint is restated as a conjunct); in particular 1
encodes to the single byte 02 (5-byte message), -1 to 01, and 0 to 00. -/
theorem signed_int_args_encode_zigzag_varint :
    (∀ (sp : Specifier) (n : Int) (fmt buf : List Nat),
      4 + (varint_encode (zigzag32 n)).length ≤ buf.length →
      tokenize_to_buffer fmt [Arg.int sp n] buf =
        .ok (4 + (varint_encode (zigzag32 n)).length)
          (le_bytes4 (hash_string fmt) ++ varint_encode (zigzag32 n) ++
            buf.drop (4 + (varint_encode (zigzag32 n)).length))) ∧
    (∀ m : Nat, varint_encode m =
      if m < 128 then [m] else (m % 128 + 128) :: varint_encode (m / 128)) ∧
    varint_encode (zigzag32 1) = [0x02] ∧
    varint_encode (zigzag32 (-1)) = [0x01] ∧
    varint_encode (zigzag32 0) = [0x00] ∧
    tokenize_to_writer (strBytes "The answer is %d!") [Arg.int .d 1] 64 =
      some [0x52, 0x1c, 0xb0, 0x4c, 0x02] ∧
    tokenize_to_writer (strBytes "No! The answer is %d!") [Arg.int .d (-1)] 64 =
      some [0x36, 0xd0, 0xfb, 0x69, 0x01] := by
  refine ⟨?_, fun m => varint_encode_eq m, by decide, by decide, by decide,
    by decide, by decide⟩
  intro sp n fmt buf h
  exact tokenize_fixed_arg fmt (Arg.int sp n) _ buf h rfl

theorem signed_int_args_encode_zigzag_varint_witness :
    4 + (varint_encode (zigzag32 3)).length ≤ (List.replicate 8 (0 : Nat)).length ∧
    tokenize_to_buffer (strBytes "a %d") [Arg.int .d 3] (List.replicate 8 0) =
      .ok (4 + (varint_encode (zigzag32 3)).length)
        (le_bytes4 (hash_string (strBytes "a %d")) ++ varint_encode (zigzag32 3) ++
          (List.replicate 8 (0 : Nat)).drop (4 + (varint_encode (zigzag32 3)).length)) :=
  ⟨by decide,
    signed_int_args_encode_zigzag_varint.1 .d 3 (strBytes "a %d")
      (List.replicate 8 0) (by decide)⟩

/-- Claim C3: a string argument that fits entirely (length at most 127)
is encoded as one length byte — low 7 bits the content length, truncation
bit clear — followed by the raw content; in particular "Pigweed" in a
64-byte buffer contributes 07 then the 7 content bytes after the token. -/
theorem string_arg_fits_length_prefixed :
    (∀ (fmt s buf : List Nat), s.length ≤ 127 → 5 + s.length ≤ buf.length →
      tokenize_to_buffer fmt [Arg.str s] buf =
        .ok (5 + s.length)
          (le_bytes4 (hash_string fmt) ++ (s.length :: s) ++
            buf.drop (5 + s.length)) ∧
        s.length % 128 = s.length ∧ s.length / 128 = 0) ∧
    tokenize_to_writer (strBytes "Hello: %s!") [Arg.str (strBytes "Pigweed")] 64 =
      some [0x25, 0xf6, 0x2e, 0x66, 0x07, 0x50, 0x69, 0x67, 0x77, 0x65, 0x65, 0x64] := by
  refine ⟨?_, by decide⟩
  intro fmt s buf h127 h
  refine ⟨?_, by omega, by omega⟩
  have hEnc : encodeArg ⟨le_bytes4 (hash_string fmt) ++ buf.drop 4, 4⟩
      (Arg.str s) =
      Cursor.write_all ⟨le_bytes4 (hash_string fmt) ++ buf.drop 4, 4⟩
        (s.length :: s) := by
    apply encodeArg_str_fit
    rw [remaining_after_token _ _ (le_bytes4_length _)]
    simp
    omega
  have hfix := tokenize_fixed_arg fmt (Arg.str s) (s.length :: s) buf
    (by simp; omega) hEnc
  have e : 4 + (s.length :: s).length = 5 + s.length := by simp; omega
  rw [e] at hfix
  exact hfix

theorem string_arg_fits_length_prefixed_witness :
    ([65] : List Nat).length ≤ 127 ∧
    5 + ([65] : List Nat).length ≤ (List.replicate 10 (0 : Nat)).length ∧
    (tokenize_to_buffer (strBytes "a %s") [Arg.str [65]] (List.replicate 10 0) =
      .ok (5 + ([65] : List Nat).length)
        (le_bytes4 (hash_string (strBytes "a %s")) ++
          (([65] : List Nat).length :: [65]) ++
          (List.replicate 10 (0 : Nat)).drop (5 + ([65] : List Nat).length)) ∧
      ([65] : List Nat).length % 128 = ([65] : List Nat).length ∧
      ([65] : List Nat).length / 128 = 0) :=
  ⟨by decide, by decide,
    string_arg_fits_length_prefixed.1 (strBytes "a %s") [65]
      (List.replicate 10 0) (by decide) (by decide)⟩

/-- Claim C4: a string argument that does not fit still succeeds: the
longest prefix that fits is written and the length byte carries the
truncation bit (high bit set, low 7 bits the bytes actually written); in
particular "Pigweed" into an 8-byte buffer gives token, 83, "Pig" —
exactly 8 bytes — and the call reports success. -/
theorem string_arg_truncates_on_overflow :
    (∀ (fmt s buf : List Nat), 5 ≤ buf.length → buf.length - 5 < s.length →
      buf.length - 5 ≤ 127 →
      tokenize_to_buffer fmt [Arg.str s] buf =
        .ok buf.length
          (le_bytes4 (hash_string fmt) ++
            ((128 + (buf.length - 5)) :: s.take (buf.length - 5))) ∧
        (128 + (buf.length - 5)) / 128 = 1 ∧
        (128 + (buf.length - 5)) % 128 = buf.length - 5) ∧
    tokenize_to_writer (strBytes "Hello: %s!") [Arg.str (strBytes "Pigweed")] 8 =
      some [0x25, 0xf6, 0x2e, 0x66, 0x83, 0x50, 0x69, 0x67] ∧
    tokenize_to_buffer (strBytes "Hello: %s!") [Arg.str (strBytes "Pigweed")]
        (List.replicate 8 0) =
      .ok 8 [0x25, 0xf6, 0x2e, 0x66, 0x83, 0x50, 0x69, 0x67] := by
  refine ⟨?_, by decide, by decide⟩
  intro fmt s buf h5 hov h127
  refine ⟨?_, by omega, by omega⟩
  have hrem : Cursor.remaining ⟨le_bytes4 (hash_string fmt) ++ buf.drop 4, 4⟩ =
      buf.length - 4 := by
    rw [remaining_after_token _ _ (le_bytes4_length _)]
    simp
  have hEnc : encodeArg ⟨le_bytes4 (hash_string fmt) ++ buf.drop 4, 4⟩
      (Arg.str s) =
      Cursor.write_all ⟨le_bytes4 (hash_string fmt) ++ buf.drop 4, 4⟩
        ((128 + (buf.length - 5)) :: s.take (buf.length - 5)) := by
    rw [encodeArg_str_trunc _ _ (by rw [hrem]; omega) (by rw [hrem]; omega), hrem]
    have e : buf.length - 4 - 1 = buf.length - 5 := by omega
    rw [e]
  have hdl : (((128 + (buf.length - 5)) :: s.take (buf.length - 5)) :
      List Nat).length = buf.length - 4 := by
    simp [List.length_take]
    omega
  have hfix := tokenize_fixed_arg fmt (Arg.str s)
    ((128 + (buf.length - 5)) :: s.take (buf.length - 5)) buf
    (by rw [hdl]; omega) hEnc
  rw [hdl] at hfix
  have e2 : 4 + (buf.length - 4) = buf.length := by omega
  rw [e2] at hfix
  rw [List.drop_eq_nil_of_le (by omega), List.append_nil] at hfix
  exact hfix

theorem string_arg_truncates_on_overflow_witness :
    5 ≤ (List.replicate 8 (0 : Nat)).length ∧
    (List.replicate 8 (0 : Nat)).length - 5 < (strBytes "Pigweed").length ∧
    (List.replicate 8 (0 : Nat)).length - 5 ≤ 127 ∧
    (tokenize_to_buffer (strBytes "a %s") [Arg.str (strBytes "Pigweed")]
        (List.replicate 8 0) =
      .ok (List.replicate 8 (0 : Nat)).length
        (le_bytes4 (hash_string (strBytes "a %s")) ++
          ((128 + ((List.replicate 8 (0 : Nat)).length - 5)) ::
            (strBytes "Pigweed").take ((List.replicate 8 (0 : Nat)).length - 5))) ∧
      (128 + ((List.replicate 8 (0 : Nat)).length - 5)) / 128 = 1 ∧
      (128 + ((List.replicate 8 (0 : Nat)).length - 5)) % 128 =
        (List.replicate 8 (0 : Nat)).length - 5) :=
  ⟨by decide, by decide, by decide,
    string_arg_truncates_on_overflow.1 (strBytes "a %s") (strBytes "Pigweed")
      (List.replicate 8 0) (by decide) (by decide) (by decide)⟩

/-- Claim C5: literal fragments joined with the concatenation operator
are merged into one logical string before tokenization, so the fragments
encode byte-identically to the single already-joined literal; in
particular "Hello" plus " Pigweed" encodes exactly like "Hello Pigweed". -/
theorem concat_fragments_token_equivalence :
    (∀ (frags : List (List Nat)) (args : List Arg) (buf : List Nat),
      tokenize_fragments_to_buffer frags args buf =
        tokenize_to_buffer (concat_static_strs frags) args buf) ∧
    (∀ (args : List Arg) (buf : List Nat),
      tokenize_fragments_to_buffer [strBytes "Hello", strBytes " Pigweed"]
          args buf =
        tokenize_to_buffer (strBytes "Hello Pigweed") args buf) ∧
    tokenize_fragments_to_buffer [strBytes "Hello", strBytes " Pigweed"] []
        (List.replicate 64 0) =
      .ok 4 ([0xe0, 0x92, 0xe0, 0x0a] ++ List.replicate 60 0) ∧
    tokenize_fragments_to_buffer [strBytes "Hello: ", strBytes "%cigweed"]
        [Arg.char 0x50] (List.replicate 64 0) =
      tokenize_to_buffer (strBytes "Hello: %cigweed") [Arg.char 0x50]
        (List.replicate 64 0) := by
  have hjoin : concat_static_strs [strBytes "Hello", strBytes " Pigweed"] =
      strBytes "Hello Pigweed" := by decide
  refine ⟨fun _ _ _ => rfl, ?_, by decide, by decide⟩
  intro args buf
  rw [tokenize_fragments_to_buffer, hjoin]

/-- Claim C6: every integer specifier class (%d, %i, %o, %u, %x, %X)
produces identical argument wire bytes for the same value — radix changes
only the format string and hence the token, never the argument bytes; the
argument bytes for the value 1 are the single byte 02 under all six
specifiers (the %i line uses the %d format string because the format
machinery rewrites %i to %d before hashing, as the test notes). -/
theorem integer_specifiers_share_wire_encoding :
    (∀ (c : Cursor) (sp1 sp2 : Specifier) (n : Int),
      encodeArg c (Arg.int sp1 n) = encodeArg c (Arg.int sp2 n)) ∧
    (∀ (c : Cursor) (sp1 sp2 : Specifier) (n : Nat),
      encodeArg c (Arg.uint sp1 n) = encodeArg c (Arg.uint sp2 n)) ∧
    (∀ n : Nat, n < 2 ^ 31 →
      varint_encode (zigzag32 (n : Int)) = varint_encode (n * 2 % 2 ^ 32)) ∧
    varint_encode (zigzag32 1) = [0x02] ∧
    varint_encode (1 * 2 % 2 ^ 32) = [0x02] ∧
    tokenize_to_writer (strBytes "The answer is %d!") [Arg.int .d 1] 64 =
      some [0x52, 0x1c, 0xb0, 0x4c, 0x02] ∧
    tokenize_to_writer (strBytes "The answer is %d!") [Arg.int .i 1] 64 =
      some [0x52, 0x1c, 0xb0, 0x4c, 0x02] ∧
    tokenize_to_writer (strBytes "The answer is %o!") [Arg.uint .o 1] 64 =
      some [0x5d, 0x70, 0x12, 0xb4, 0x02] ∧
    tokenize_to_writer (strBytes "The answer is %u!") [Arg.uint .u 1] 64 =
      some [0x63, 0x58, 0x5f, 0x8f, 0x02] ∧
    tokenize_to_writer (strBytes "The answer is %x!") [Arg.uint .x 1] 64 =
      some [0x66, 0xcc, 0x05, 0x7d, 0x02] ∧
    tokenize_to_writer (strBytes "The answer is %X!") [Arg.uint .X 1] 64 =
      some [0x46, 0x4c, 0x16, 0x96, 0x02] := by
  refine ⟨fun _ _ _ _ => rfl, fun _ _ _ _ => rfl, ?_, by decide, by decide,
    by decide, by decide, by decide, by decide, by decide, by decide⟩
  intro n hn
  congr 1
  unfold zigzag32
  have h1 : ((n : Int) % 4294967296).toNat = n := by omega
  rw [h1, if_neg (by omega)]
  exact Nat.xor_zero _

theorem integer_specifiers_share_wire_encoding_witness :
    (1 : Nat) < 2 ^ 31 ∧
    varint_encode (zigzag32 ((1 : Nat) : Int)) = varint_encode (1 * 2 % 2 ^ 32) :=
  ⟨by decide, integer_specifiers_share_wire_encoding.2.2.1 1 (by decide)⟩

/-- Claim C7: a character argument is encoded as exactly one raw byte
equal to its numeric value, with no transform and no length prefix; in
particular the character P contributes the single byte 50 after the
token. -/
theorem char_arg_single_raw_byte :
    (∀ (fmt : List Nat) (ch : Nat) (buf : List Nat), ch < 256 →
      5 ≤ buf.length →
      tokenize_to_buffer fmt [Arg.char ch] buf =
        .ok 5 (le_bytes4 (hash_string fmt) ++ [ch] ++ buf.drop 5)) ∧
    tokenize_to_writer (strBytes "Hello: %cigweed") [Arg.char 0x50] 64 =
      some [0x2e, 0x52, 0xac, 0xe4, 0x50] := by
  refine ⟨?_, by decide⟩
  intro fmt ch buf hch h
  have hfix := tokenize_fixed_arg fmt (Arg.char ch) [ch % 256] buf
    (by simp; omega) rfl
  rw [Nat.mod_eq_of_lt hch] at hfix
  simpa using hfix

theorem char_arg_single_raw_byte_witness :
    (80 : Nat) < 256 ∧ 5 ≤ (List.replicate 5 (0 : Nat)).length ∧
    tokenize_to_buffer (strBytes "a %c") [Arg.char 80] (List.replicate 5 0) =
      .ok 5 (le_bytes4 (hash_string (strBytes "a %c")) ++ [80] ++
        (List.replicate 5 (0 : Nat)).drop 5) :=
  ⟨by decide, by decide,
    char_arg_single_raw_byte.1 (strBytes "a %c") 80 (List.replicate 5 0)
      (by decide) (by decide)⟩

/-- Claim C8 counterexample: the claim asserts that whenever an encode
call fails for lack of space — also when it is a non-string argument that
does not fit — no bytes are committed and the destination is unchanged.
At format "The answer is %d!" with argument 64 (a 2-byte varint) and a
5-byte zeroed buffer, the call does fail, yet the 4 token bytes were
already committed: the final contents differ from the original zeros. -/
theorem capacity_claim_counterexample :
    tokenize_to_buffer (strBytes "The answer is %d!") [Arg.int .d 64]
        (List.replicate 5 0) =
      .err [0x52, 0x1c, 0xb0, 0x4c, 0] ∧
    ¬ ([0x52, 0x1c, 0xb0, 0x4c, 0] : List Nat) = List.replicate 5 0 :=
  ⟨by decide, by decide⟩

/-- Claim C8 (amended): if the destination is smaller than the 4 token
bytes the call fails with out-of-range and the destination is unchanged;
if instead the full encoding of any non-string argument (signed or
unsigned integer, or character, in any position) does not fit the space
left after the token and the earlier arguments, the call also fails with
out-of-range, but the bytes already written before the failure — the
token and any earlier arguments — remain committed: the destination
holds exactly what the successful encode of the earlier arguments alone
had produced. -/
theorem capacity_failure_amended :
    (∀ (fmt : List Nat) (args : List Arg) (buf : List Nat), buf.length < 4 →
      tokenize_to_buffer fmt args buf = .err buf) ∧
    (∀ (fmt buf : List Nat) (args1 : List Arg) (a : Arg) (args2 : List Arg)
      (data : List Nat) (len : Nat) (mid : List Nat),
      nonStringBytes a = some data →
      tokenize_to_buffer fmt args1 buf = .ok len mid →
      mid.length - len < data.length →
      tokenize_to_buffer fmt (args1 ++ a :: args2) buf = .err mid) ∧
    tokenize_to_buffer (strBytes "The answer is %d!") [Arg.int .d 64]
        (List.replicate 5 0) =
      .err [0x52, 0x1c, 0xb0, 0x4c, 0] := by
  refine ⟨?_, ?_, by decide⟩
  · intro fmt args buf h
    rw [tokenize_to_buffer,
      write_all_of_gt _ _ (by simp [le_bytes4_length, Cursor.remaining]; omega)]
  · intro fmt buf args1 a args2 data len mid hNS h2 hov
    unfold tokenize_to_buffer at h2 ⊢
    cases hW : Cursor.write_all ⟨buf, 0⟩ (le_bytes4 (hash_string fmt)) with
    | none => rw [hW] at h2; exact absurd h2 (by simp)
    | some c1 =>
      rw [hW] at h2
      show encodeArgs (args1 ++ a :: args2) c1 = EncodeResult.err mid
      rw [encodeArgs_append_of_ok args1 c1 len mid h2 (a :: args2)]
      have hEnc : encodeArg ⟨mid, len⟩ a = none := by
        rw [encodeArg_nonString _ _ _ hNS]
        apply write_all_of_gt
        simp [Cursor.remaining]
        omega
      simp only [encodeArgs, hEnc]

theorem capacity_failure_amended_witness :
    ((List.replicate 2 (0 : Nat)).length < 4 ∧
      tokenize_to_buffer (strBytes "Hi") [] (List.replicate 2 0) =
        .err (List.replicate 2 0)) ∧
    (nonStringBytes (Arg.uint .u 64) = some (varint_encode (64 * 2 % 2 ^ 32)) ∧
      tokenize_to_buffer (strBytes "a %c%u") [Arg.char 80] (List.replicate 6 0) =
        .ok 5 (le_bytes4 (hash_string (strBytes "a %c%u")) ++ [80, 0]) ∧
      (le_bytes4 (hash_string (strBytes "a %c%u")) ++ [80, 0]).length - 5 <
        (varint_encode (64 * 2 % 2 ^ 32)).length ∧
      tokenize_to_buffer (strBytes "a %c%u")
          ([Arg.char 80] ++ Arg.uint .u 64 :: []) (List.replicate 6 0) =
        .err (le_bytes4 (hash_string (strBytes "a %c%u")) ++ [80, 0])) :=
  ⟨⟨by decide,
      capacity_failure_amended.1 (strBytes "Hi") [] (List.replicate 2 0)
        (by decide)⟩,
    ⟨by decide, by decide, by decide,
      capacity_failure_amended.2.1 (strBytes "a %c%u") (List.replicate 6 0)
        [Arg.char 80] (Arg.uint .u 64) [] (varint_encode (64 * 2 % 2 ^ 32)) 5
        (le_bytes4 (hash_string (strBytes "a %c%u")) ++ [80, 0])
        (by decide) (by decide) (by decide)⟩⟩

/-- Claim C9: the token hash is a fixed concrete function of the string
bytes with the published sample values: the token of the string
hello, "world" is 3537412730, the token of "Hello Pigweed" serializes to
the little-endian bytes e0 92 e0 0a, and equal strings always hash to the
same 32-bit token. -/
theorem hash_fixed_function_published_samples :
    hash_string (strBytes "hello, \"world\"") = 3537412730 ∧
    le_bytes4 (hash_string (strBytes "Hello Pigweed")) =
      [0xe0, 0x92, 0xe0, 0x0a] ∧
    ∀ s : List Nat, hash_string s = hash_string s :=
  ⟨by decide, by decide, fun _ => rfl⟩

/-- Claim C10: a successful `tokenize_to_buffer` call returning `Ok(len)`
modifies only the first `len` bytes of the buffer of the caller: every
byte at index `len` or beyond keeps the value it had before the call (and
the buffer keeps its length). -/
theorem success_only_writes_first_len_bytes
    (fmt : List Nat) (args : List Arg) (buf : List Nat) (len : Nat)
    (buf' : List Nat)
    (h : tokenize_to_buffer fmt args buf = .ok len buf') :
    buf'.length = buf.length ∧ ∀ i, len ≤ i → buf'[i]? = buf[i]? := by
  unfold tokenize_to_buffer at h
  cases hW : Cursor.write_all ⟨buf, 0⟩ (le_bytes4 (hash_string fmt)) with
  | none => rw [hW] at h; exact absurd h (by simp)
  | some c1 =>
    rw [hW] at h
    obtain ⟨w1, w2, w3, w4⟩ := write_all_frame ⟨buf, 0⟩ c1 _ (by simp) hW
    obtain ⟨q1, q2, q3, q4⟩ := encodeArgs_ok_frame args c1 len buf' w3 h
    constructor
    · rw [q2, w2]
    · intro i hi
      have hd : buf'.drop i = buf.drop i := by
        rw [q4 i hi]
        exact w4 i (by omega)
      have := congrArg (fun l => l[0]?) hd
      simpa [List.getElem?_drop] using this

theorem success_only_writes_first_len_bytes_witness :
    tokenize_to_buffer (strBytes "Hello Pigweed") [] [1, 2, 3, 4, 5, 6] =
      .ok 4 [0xe0, 0x92, 0xe0, 0x0a, 5, 6] ∧
    (([0xe0, 0x92, 0xe0, 0x0a, 5, 6] : List Nat).length =
        ([1, 2, 3, 4, 5, 6] : List Nat).length ∧
      ∀ i, 4 ≤ i →
        ([0xe0, 0x92, 0xe0, 0x0a, 5, 6] : List Nat)[i]? =
          ([1, 2, 3, 4, 5, 6] : List Nat)[i]?) :=
  ⟨by decide,
    success_only_writes_first_len_bytes (strBytes "Hello Pigweed") []
      [1, 2, 3, 4, 5, 6] 4 [0xe0, 0x92, 0xe0, 0x0a, 5, 6] (by decide)⟩
